import Mathlib

/-!
Shallow embedding of `xmlschema/helpers.py` (qualified-name resolution,
derivation-attribute validation, digit counting, particle occurrence
algebra).  Python strings are modelled as `List Char`; a value that may be
`None`, a string, or a non-string object is modelled by `PyVal`; raised
exceptions are modelled by `Except PyErr`.
-/

/-- Errors raised by the helper functions: `XMLSchemaValueError`
(malformed format / constraint violation) and `XMLSchemaTypeError`. -/
inductive PyErr where
  | valueError
  | typeError
deriving DecidableEq, Repr

/-- A Python argument that may be `None`, a string, or a non-string object. -/
inductive PyVal where
  | absent
  | str (s : List Char)
  | nonString
deriving DecidableEq, Repr

deriving instance DecidableEq for Except

/-! ## Particle occurrence counter (`ParticleCounter`) -/

/-- State of `ParticleCounter`: `max_occurs = none` models Python's `None`,
i.e. the unbounded upper bound. -/
structure ParticleCounter where
  min_occurs : Nat
  max_occurs : Option Nat
deriving DecidableEq, Repr

/-- `ParticleCounter.__add__` (sequence combination), embedded as a pure
function on the pre-state of `self` and `other`; the Python method mutates
`self` to this value and returns it. -/
def ParticleCounter.add (a b : ParticleCounter) : ParticleCounter :=
  { min_occurs := a.min_occurs + b.min_occurs
    max_occurs :=
      match a.max_occurs, b.max_occurs with
      | some x, some y => some (x + y)
      | _, _ => none }

/-- `ParticleCounter.__mul__` (nesting combination), embedded as a pure
function on the pre-state of `self` and `other`.  The branch structure
mirrors the source: an unbounded `self` stays unbounded unless
`other.max_occurs == 0`; an unbounded `other` makes `self` unbounded unless
`self.max_occurs` is `0`. -/
def ParticleCounter.mul (a b : ParticleCounter) : ParticleCounter :=
  { min_occurs := a.min_occurs * b.min_occurs
    max_occurs :=
      match a.max_occurs, b.max_occurs with
      | none, bm => if bm = some 0 then some 0 else none
      | some x, none => if x ≠ 0 then none else some x
      | some x, some y => some (x * y) }

/-! ## Python string primitives used by the helpers -/

/-- `s.lstrip('0')`. -/
def lstrip0 (s : List Char) : List Char := s.dropWhile (fun c => c == '0')

/-- `s.rstrip('0')`. -/
def rstrip0 (s : List Char) : List Char := (s.reverse.dropWhile (fun c => c == '0')).reverse

/-- `s.strip('0')`. -/
def strip0 (s : List Char) : List Char := rstrip0 (lstrip0 s)

/-- `s.lstrip('-+')`. -/
def lstripSign (s : List Char) : List Char := s.dropWhile (fun c => c == '-' || c == '+')

/-- `s.partition(c)` restricted to the pieces the source uses: the part
before the first occurrence of `c` and the part after it (empty when `c`
does not occur). -/
def partitionAt (c : Char) (s : List Char) : List Char × List Char :=
  (s.takeWhile (fun x => x != c), (s.dropWhile (fun x => x != c)).drop 1)

/-- Decimal digits of a numeral string, as a natural number. -/
def digitsToNat (s : List Char) : Nat :=
  s.foldl (fun n c => 10 * n + (c.toNat - '0'.toNat)) 0

/-- Optional leading `'+'`/`'-'` sign: returns (is-negative, rest). -/
def parseSign : List Char → Bool × List Char
  | '+' :: r => (false, r)
  | '-' :: r => (true, r)
  | s => (false, s)

/-- `int(s)` on an optionally signed digit string (`none` models the
`ValueError` Python would raise). -/
def parseIntPy (s : List Char) : Option Int :=
  let (neg, r) := parseSign s
  if r ≠ [] ∧ r.all Char.isDigit then
    some (if neg then -(digitsToNat r : Int) else (digitsToNat r : Int))
  else none

/-! ## Model of `decimal.Decimal` string round-trip

`count_digits` feeds string input through `str(Decimal(number))`.
`Decimal` is the Python standard library's exact decimal type; it is
modelled here by its documented behaviour (IBM General Decimal Arithmetic):
parsing keeps the coefficient digits exactly as written (leading zeros
dropped) together with a decimal exponent, and `str` renders with
`to-scientific-string` (scientific notation exactly when the stored
exponent is positive or the adjusted exponent is below `-6`). -/

/-- A parsed finite decimal: sign, coefficient digits (no leading zeros,
`['0']` for zero), and exponent. -/
structure DecParsed where
  neg : Bool
  coeff : List Char
  exp : Int
deriving DecidableEq, Repr

/-- Drop leading `'0'` digits of a coefficient, keeping a single `'0'`
when all digits are zero. -/
def stripLeadZeros (ds : List Char) : List Char :=
  match ds.dropWhile (fun c => c == '0') with
  | [] => ['0']
  | r => r

/-- Parse a decimal numeric string (`sign? digits? [. digits?] [eE sign? digits]`,
at least one digit); `none` models `InvalidOperation`. -/
def decParse (s : List Char) : Option DecParsed :=
  let (neg, r) := parseSign s
  let mant := r.takeWhile (fun c => !(c == 'e' || c == 'E'))
  let rest := r.dropWhile (fun c => !(c == 'e' || c == 'E'))
  let eopt : Option Int := if rest = [] then some 0 else parseIntPy (rest.drop 1)
  match eopt with
  | none => none
  | some e =>
    let intd := mant.takeWhile (fun c => c != '.')
    let frac := (mant.dropWhile (fun c => c != '.')).drop 1
    if intd.all Char.isDigit ∧ frac.all Char.isDigit ∧ intd ++ frac ≠ [] ∧ '.' ∉ frac then
      some ⟨neg, stripLeadZeros (intd ++ frac), e - frac.length⟩
    else none

/-- `to-scientific-string` of a finite decimal (the behaviour of
`str(Decimal(...))`). -/
def decStr (d : DecParsed) : List Char :=
  let c := d.coeff
  let adjusted : Int := d.exp + c.length - 1
  let body :=
    if d.exp ≤ 0 ∧ -6 ≤ adjusted then
      if d.exp = 0 then c
      else if 0 ≤ adjusted then
        c.take (adjusted + 1).toNat ++ '.' :: c.drop (adjusted + 1).toNat
      else '0' :: '.' :: (List.replicate (-(adjusted + 1)).toNat '0' ++ c)
    else
      (match c with
       | [] => []
       | [d0] => [d0]
       | d0 :: ds => d0 :: '.' :: ds) ++
      'E' :: (if adjusted < 0 then '-' :: Nat.toDigits 10 (-adjusted).toNat
              else '+' :: Nat.toDigits 10 adjusted.toNat)
  if d.neg then '-' :: body else body

/-! ## `count_digits` -/

/-- `count_digits` on a string argument: the source converts it with
`str(Decimal(number)).lstrip('-+')` and then analyses the canonical text.
`none` models the exception `Decimal` raises on a non-numeric string. -/
def count_digits (s : List Char) : Option (Int × Int) :=
  (decParse s).bind (fun d =>
    let number := lstripSign (decStr d)
    if 'E' ∈ number ∨ 'e' ∈ number then
      let se := if 'E' ∈ number then partitionAt 'E' number else partitionAt 'e' number
      (parseIntPy se.2).map (fun e =>
        let sg := strip0 se.1
        let numDigits : Int := if '.' ∈ sg then (sg.length : Int) - 1 else (sg.length : Int)
        if 0 < e then (numDigits + e, 0) else (0, numDigits - e - 1))
    else if '.' ∉ number then
      some (((lstrip0 number).length : Int), 0)
    else
      let p := partitionAt '.' number
      some (((lstrip0 p.1).length : Int), ((rstrip0 p.2).length : Int)))

/-! ## Name resolver: `get_namespace`, `get_qname`, `local_name` -/

/-- Body of `get_namespace` on a string: `re.match('{([^}]*)}', name)`
matches exactly when the string starts with `'{'` and a `'}'` follows,
and group 1 is everything strictly between the leading `'{'` and the
first `'}'`. -/
def get_namespace_core (s : List Char) : List Char :=
  match s with
  | [] => []
  | c :: rest => if c = '{' ∧ '}' ∈ rest then rest.takeWhile (fun x => x != '}') else []

/-- `get_namespace`: the `AttributeError` (no regex match) and `TypeError`
(`None` or non-string argument) are both caught and turned into `''`. -/
def get_namespace : PyVal → List Char
  | .str s => get_namespace_core s
  | .absent => []
  | .nonString => []

/-- `get_qname`: returns `name` unchanged when `uri` or `name` is falsy or
`name` starts with one of `'{'`, `'.'`, `'/'`, `'['`; otherwise
`'{%s}%s' % (uri, name)`. -/
def get_qname (uri name : List Char) : List Char :=
  if uri = [] ∨ name = [] ∨ name.head? = some '{' ∨ name.head? = some '.' ∨
      name.head? = some '/' ∨ name.head? = some '[' then name
  else '{' :: (uri ++ '}' :: name)

/-- The suffix after the first occurrence of `c` (the second component of
an `s.split(c)` unpacking when `c` occurs exactly once). -/
def afterChar (c : Char) (s : List Char) : List Char :=
  (s.dropWhile (fun x => x != c)).drop 1

/-- `local_name`: `qname.split('}')` (resp. `split(':')`) unpacks into two
variables exactly when the separator occurs exactly once, otherwise the
`ValueError` is re-raised as `XMLSchemaValueError`; the empty string hits
the `IndexError` handler, `None` is returned unchanged, and any other
non-string raises `XMLSchemaTypeError`. -/
def local_name : PyVal → Except PyErr PyVal
  | .absent => .ok .absent
  | .nonString => .error .typeError
  | .str [] => .ok (.str [])
  | .str (c :: rest) =>
    if c = '{' then
      if (c :: rest).count '}' = 1 then .ok (.str (afterChar '}' (c :: rest)))
      else .error .valueError
    else if ':' ∈ c :: rest then
      if (c :: rest).count ':' = 1 then .ok (.str (afterChar ':' (c :: rest)))
      else .error .valueError
    else .ok (.str (c :: rest))

/-! ## Attribute validator: `get_xsd_derivation_attribute` -/

/-- ASCII whitespace recognised by Python's `str.split()` with no
separator argument. -/
def isPySpace (c : Char) : Bool :=
  c == ' ' || c == '\t' || c == '\n' || c == '\r' || c == '\x0b' || c == '\x0c'

/-- `value.split()`: split on runs of whitespace, producing no empty
tokens. -/
def pySplit : List Char → List (List Char)
  | [] => []
  | c :: rest =>
    if isPySpace c then pySplit rest
    else (c :: rest.takeWhile (fun x => !isPySpace x)) ::
      pySplit (rest.dropWhile (fun x => !isPySpace x))
termination_by s => s.length
decreasing_by
  · simp
  · have := (List.dropWhile_sublist (l := rest) (fun x => !isPySpace x)).length_le
    simp
    omega

/-- `' '.join(values)`. -/
def joinSpace : List (List Char) → List Char
  | [] => []
  | [x] => x
  | x :: y :: rest => x ++ ' ' :: joinSpace (y :: rest)

/-- The module constant `XSD_FINAL_ATTRIBUTE_VALUES`, a Python set
literal; it is modelled as the list of its elements in source order (the
iteration order of a Python set is unspecified). -/
def XSD_FINAL_ATTRIBUTE_VALUES : List (List Char) :=
  ["restriction".data, "extension".data, "list".data, "union".data]

/-- `get_xsd_derivation_attribute`, as a function of the attribute's raw
value (`elem.get(attribute)`, `none` when the attribute is missing) and of
the admitted `values` (in iteration order). -/
def get_xsd_derivation_attribute (value : Option (List Char))
    (values : List (List Char)) : Except PyErr (List Char) :=
  match value with
  | none => .ok []
  | some v =>
    let items := pySplit v
    if items = ["#all".data] then .ok (joinSpace values)
    else if items.all (fun s => values.contains s) then .ok v
    else .error .valueError

/-! ## Name resolver: `qname_to_prefixed`, `qname_to_extended` -/

/-- A namespace-map entry: (prefix, URI).  A Python dict is modelled as
the list of its items; its keys (the first components) are distinct. -/
abbrev NSEntry := List Char × List Char

/-- Python string comparison (`<`) on character lists: lexicographic by
code point, a proper prefix is smaller. -/
def listLtB : List Char → List Char → Bool
  | [], [] => false
  | [], _ :: _ => true
  | _ :: _, [] => false
  | a :: s, b :: t => if a < b then true else if b < a then false else listLtB s t

/-- Python tuple comparison `(p2, u2) <= (p1, u1)` on namespace-map items:
`sorted(…, reverse=True)` puts `x` before `y` exactly when `pairGeB x y`. -/
def pairGeB (x y : NSEntry) : Bool :=
  if listLtB x.1 y.1 then false
  else if listLtB y.1 x.1 then true
  else !(listLtB x.2 y.2)

/-- The ordering relation used by `sorted(…, reverse=True)`. -/
def entryGe (x y : NSEntry) : Prop := pairGeB x y = true

instance : DecidableRel entryGe :=
  fun x y => (inferInstance : Decidable (pairGeB x y = true))

/-- `sorted(candidates, reverse=True)` for namespace-map items. -/
def sortDesc (l : List NSEntry) : List NSEntry := List.insertionSort entryGe l

/-- `qname.replace(pat, rep)`: replace each non-overlapping occurrence of
`pat`, scanning left to right (the source only calls this with a
non-empty `pat`). -/
def pyReplace (pat rep : List Char) : List Char → List Char
  | [] => []
  | c :: rest =>
    if pat ≠ [] ∧ pat.isPrefixOf (c :: rest) then
      rep ++ pyReplace pat rep (rest.drop (pat.length - 1))
    else c :: pyReplace pat rep rest
termination_by s => s.length
decreasing_by
  · simp [List.length_drop]
    omega
  · simp

/-- The loop body of `qname_to_prefixed` for the first candidate `(prefix,
uri)`: returns `prefix:qname` (or `qname`) when the URI is falsy, else
replaces the `{uri}` substring with `prefix:` or strips it. -/
def applyNS (qname : List Char) (e : NSEntry) : List Char :=
  if e.2 = [] then (if e.1 ≠ [] then e.1 ++ ':' :: qname else qname)
  else if e.1 ≠ [] then pyReplace ('{' :: (e.2 ++ ['}'])) (e.1 ++ [':']) qname
  else pyReplace ('{' :: (e.2 ++ ['}'])) [] qname

/-- `qname_to_prefixed`: a falsy name is returned unchanged; otherwise the
map items bound to `get_namespace(qname)` are visited in descending tuple
order and the first one is applied; with no candidate the name is
returned unchanged. -/
def qname_to_prefixed (qname : List Char) (m : List NSEntry) : List Char :=
  if qname = [] then qname
  else
    match sortDesc (m.filter (fun x => x.2 == get_namespace_core qname)) with
    | [] => qname
    | e :: _ => applyNS qname e

/-- `namespaces[prefix]`-style lookup on the modelled dict items. -/
def pyGet (m : List NSEntry) (k : List Char) : Option (List Char) :=
  match m with
  | [] => none
  | e :: rest => if e.1 = k then some e.2 else pyGet rest k

/-- `qname.split(':', 1)` when it succeeds: the part before the first
`':'` and the part after it; `none` when there is no `':'` (the caught
`ValueError`). -/
def splitOnce (c : Char) : List Char → Option (List Char × List Char)
  | [] => none
  | a :: rest =>
    if a = c then some ([], rest)
    else (splitOnce c rest).map (fun p => (a :: p.1, p.2))

/-- `qname_to_extended`: an empty or already-universal name, or an empty
map, is returned unchanged; a local name is qualified with the default
(empty-prefix) binding when that binding is truthy; a prefixed name is
resolved through the map, an unknown prefix leaving it unchanged and an
empty URI producing the bare local part. -/
def qname_to_extended (qname : List Char) (m : List NSEntry) : List Char :=
  if qname = [] ∨ qname.head? = some '{' ∨ m = [] then qname
  else
    match splitOnce ':' qname with
    | none =>
      match pyGet m [] with
      | some u => if u = [] then qname else '{' :: (u ++ '}' :: qname)
      | none => qname
    | some (p, l) =>
      match pyGet m p with
      | none => qname
      | some u => if u = [] then l else '{' :: (u ++ '}' :: l)

/-! ### Helper lemmas on the character-list primitives -/

theorem takeWhile_ne_of_append {c : Char} {u l : List Char} (h : c ∉ u) :
    (u ++ c :: l).takeWhile (fun x => x != c) = u := by
  induction u with
  | nil => simp [List.takeWhile]
  | cons a u ih =>
    have ha : a ≠ c := fun hac => h (hac ▸ List.mem_cons_self a u)
    have hu : c ∉ u := fun hc => h (List.mem_cons_of_mem a hc)
    have ha' : (a != c) = true := bne_iff_ne.mpr ha
    simp [List.takeWhile, ha', ih hu]

theorem dropWhile_ne_of_append {c : Char} {u l : List Char} (h : c ∉ u) :
    (u ++ c :: l).dropWhile (fun x => x != c) = c :: l := by
  induction u with
  | nil => simp [List.dropWhile]
  | cons a u ih =>
    have ha : a ≠ c := fun hac => h (hac ▸ List.mem_cons_self a u)
    have hu : c ∉ u := fun hc => h (List.mem_cons_of_mem a hc)
    have ha' : (a != c) = true := bne_iff_ne.mpr ha
    simp [List.dropWhile, ha', ih hu]

theorem afterChar_append {c : Char} {u l : List Char} (h : c ∉ u) :
    afterChar c (u ++ c :: l) = l := by
  simp [afterChar, dropWhile_ne_of_append h]

theorem get_namespace_core_universal {u l : List Char} (h : '}' ∉ u) :
    get_namespace_core ('{' :: (u ++ '}' :: l)) = u := by
  show (if ('{' : Char) = '{' ∧ '}' ∈ u ++ '}' :: l
          then (u ++ '}' :: l).takeWhile (fun x => x != '}') else []) = u
  rw [if_pos ⟨rfl, by simp⟩, takeWhile_ne_of_append h]

theorem get_namespace_core_not_brace {s : List Char} (h : s.head? ≠ some '{') :
    get_namespace_core s = [] := by
  cases s with
  | nil => rfl
  | cons c rest =>
    have : c ≠ '{' := by simpa using h
    simp [get_namespace_core, this]

theorem count_one_of_notMem {c : Char} {u l : List Char} (hu : c ∉ u) (hl : c ∉ l) :
    (u ++ c :: l).count c = 1 := by
  rw [List.count_append, List.count_cons]
  rw [List.count_eq_zero.mpr hu, List.count_eq_zero.mpr hl]
  simp

/-- Error classification of `local_name` on a string argument. -/
theorem local_name_str_error_iff (q : List Char) :
    local_name (.str q) = .error .valueError ↔
      ((q.head? = some '{' ∧ q.count '}' ≠ 1) ∨
       (q.head? ≠ some '{' ∧ 2 ≤ q.count ':')) := by
  cases q with
  | nil => simp [local_name]
  | cons c rest =>
    by_cases hc : c = '{'
    · subst hc
      by_cases h1 : (('{' : Char) :: rest).count '}' = 1 <;>
        simp [local_name, h1]
    · by_cases hm : ':' ∈ c :: rest
      · have hpos : 1 ≤ (c :: rest).count ':' := List.count_pos_iff.mpr hm
        by_cases h1 : (c :: rest).count ':' = 1
        · simp [local_name, hc, hm, h1]
        · simp [local_name, hc, hm, h1]
          omega
      · have h0 : (c :: rest).count ':' = 0 := List.count_eq_zero.mpr hm
        simp [local_name, hc, hm, h0]

/-! ## Claim theorems (first group) -/

/-- C1: `count_digits` on the spec's four example strings.  The spec
states `count_digits("1.5E3") = (4, 0)`; the code canonicalises
`"1.5E3"` to `"1.5E+3"` and its exponent branch adds the full significant
digit count (2) to the exponent (3), producing `(5, 0)` — while `1.5E3 =
1500` has 4 integer digits.  The other three examples hold. -/
theorem count_digits_spec_examples :
    count_digits ("0012.3400".data) = some (2, 2) ∧
    count_digits ("1.5E3".data) = some (5, 0) ∧
    count_digits ("1.5E-3".data) = some (0, 4) ∧
    count_digits ("100".data) = some (3, 0) := by
  refine ⟨?_, ?_, ?_, ?_⟩ <;> rfl

/-- C2: nesting combination with a zero-bounded operand `(0, 0)` yields
`(0, 0)`, whichever side it is on and even when the other operand's
`max_occurs` is unbounded. -/
theorem mul_zero_bounded (a b : ParticleCounter)
    (h : a = ⟨0, some 0⟩ ∨ b = ⟨0, some 0⟩) :
    a.mul b = ⟨0, some 0⟩ := by
  rcases h with h | h <;> subst h
  · rcases b with ⟨m, mx⟩
    rcases mx with _ | x
    · simp [ParticleCounter.mul]
    · simp [ParticleCounter.mul]
  · rcases a with ⟨m, mx⟩
    rcases mx with _ | x
    · simp [ParticleCounter.mul]
    · simp [ParticleCounter.mul]

/-- Witness for C2 at a concrete input with an unbounded left operand. -/
theorem mul_zero_bounded_witness :
    ParticleCounter.mul ⟨3, none⟩ ⟨0, some 0⟩ = ⟨0, some 0⟩ :=
  mul_zero_bounded ⟨3, none⟩ ⟨0, some 0⟩ (Or.inr rfl)

/-- C3: sequence combination adds the `min_occurs` components (hence that
component is commutative and associative), and its `max_occurs` component
is unbounded exactly when either operand is unbounded, and is the sum of
the bounds when both are finite. -/
theorem add_min_sum_max_absorbing (a b c : ParticleCounter) :
    (a.add b).min_occurs = a.min_occurs + b.min_occurs ∧
    (a.add b).min_occurs = (b.add a).min_occurs ∧
    ((a.add b).add c).min_occurs = (a.add (b.add c)).min_occurs ∧
    (a.add b).max_occurs =
      (match a.max_occurs, b.max_occurs with
       | some x, some y => some (x + y)
       | _, _ => none) := by
  refine ⟨rfl, ?_, ?_, rfl⟩
  · simp [ParticleCounter.add, Nat.add_comm]
  · simp [ParticleCounter.add, Nat.add_assoc]

/-- C5 (amended): for non-empty `U`, `L` with `L` not starting with a
reserved lead character, `get_qname U L = "{U}L"` always; and when
moreover neither `U` nor `L` contains `'}'` (so that the universal form is
well formed), `local_name` recovers `L`.  Without that extra condition
`local_name` raises instead (see the counterexample). -/
theorem get_qname_roundtrip (u l : List Char) (hu : u ≠ []) (hl : l ≠ [])
    (h1 : l.head? ≠ some '{') (h2 : l.head? ≠ some '.')
    (h3 : l.head? ≠ some '/') (h4 : l.head? ≠ some '[') :
    get_qname u l = '{' :: (u ++ '}' :: l) ∧
    ('}' ∉ u → '}' ∉ l → local_name (.str (get_qname u l)) = .ok (.str l)) := by
  have hg : get_qname u l = '{' :: (u ++ '}' :: l) := by
    unfold get_qname
    rw [if_neg]
    push_neg
    exact ⟨hu, hl, h1, h2, h3, h4⟩
  refine ⟨hg, fun hcu hcl => ?_⟩
  rw [hg]
  have hcount : (('{' : Char) :: (u ++ '}' :: l)).count '}' = 1 := by
    rw [List.count_cons, count_one_of_notMem hcu hcl]
    simp
  have hAfter : afterChar '}' ('{' :: (u ++ '}' :: l)) = l := by
    have hstep : List.dropWhile (fun x => x != '}') ('{' :: (u ++ '}' :: l)) =
        List.dropWhile (fun x => x != '}') (u ++ '}' :: l) := rfl
    rw [afterChar, hstep, dropWhile_ne_of_append hcu]
    rfl
  simp [local_name, hcount, hAfter]

/-- Counterexample to C5 as stated: with `U = "a"` and `L = "}"` (both
non-empty, `L` not starting with a reserved lead character),
`local_name(get_qname(U, L))` raises the format error instead of
returning `L`. -/
theorem get_qname_roundtrip_cex :
    (['a'] : List Char) ≠ [] ∧ (['}'] : List Char) ≠ [] ∧
    (['}'] : List Char).head? ≠ some '{' ∧ (['}'] : List Char).head? ≠ some '.' ∧
    (['}'] : List Char).head? ≠ some '/' ∧ (['}'] : List Char).head? ≠ some '[' ∧
    local_name (.str (get_qname ['a'] ['}'])) = .error .valueError := by
  decide

/-- Witness for C5 (amended) at `U = "a"`, `L = "b"`. -/
theorem get_qname_roundtrip_witness :
    get_qname ['a'] ['b'] = '{' :: (['a'] ++ '}' :: ['b']) ∧
    local_name (.str (get_qname ['a'] ['b'])) = .ok (.str ['b']) := by
  have h := get_qname_roundtrip ['a'] ['b'] (by decide) (by decide)
    (by decide) (by decide) (by decide) (by decide)
  exact ⟨h.1, h.2 (by decide) (by decide)⟩

/-- C7 (amended): `local_name` fails with the format error exactly when
the input *starts with* `'{'` and its `'}'`-split does not yield exactly
two parts, or does not start with `'{'` and its `':'`-split yields more
than two parts; it returns `''` on `''`, `None` on `None`, and the type
error on a present non-string.  (The claim's condition "contains `'{'`"
is refuted by the counterexample.) -/
theorem local_name_error_cases :
    (∀ q : List Char,
      local_name (.str q) = .error .valueError ↔
        ((q.head? = some '{' ∧ q.count '}' ≠ 1) ∨
         (q.head? ≠ some '{' ∧ 2 ≤ q.count ':'))) ∧
    local_name (.str []) = .ok (.str []) ∧
    local_name .absent = .ok .absent ∧
    local_name .nonString = .error .typeError :=
  ⟨local_name_str_error_iff, rfl, rfl, rfl⟩

/-- Counterexample to C7 as stated: `"a{b"` contains `'{'` and its
`'}'`-split yields one part, not two, yet `local_name` returns it
unchanged instead of failing. -/
theorem local_name_error_cases_cex :
    ('{' ∈ (['a', '{', 'b'] : List Char)) ∧
    (['a', '{', 'b'] : List Char).count '}' ≠ 1 ∧
    local_name (.str ['a', '{', 'b']) = .ok (.str ['a', '{', 'b']) := by
  decide

/-- C8: `get_namespace` is total: it extracts the namespace of a
well-formed universal name and returns `''` on a string not starting with
`'{'`, on `None`, and on a non-string value. -/
theorem get_namespace_never_raises :
    (∀ u l : List Char, '}' ∉ u →
      get_namespace (.str ('{' :: (u ++ '}' :: l))) = u) ∧
    (∀ s : List Char, s.head? ≠ some '{' → get_namespace (.str s) = []) ∧
    get_namespace .absent = [] ∧
    get_namespace .nonString = [] :=
  ⟨fun _ _ h => get_namespace_core_universal h,
   fun _ h => get_namespace_core_not_brace h, rfl, rfl⟩

/-- Witness for C8 at the universal name `"{u}n"`. -/
theorem get_namespace_never_raises_witness :
    get_namespace (.str ['{', 'u', '}', 'n']) = ['u'] :=
  get_namespace_never_raises.1 ['u'] ['n'] (by decide)

/-- C10: a string not starting with `'{'` and containing two or more
`':'` characters makes `local_name` raise the format error. -/
theorem local_name_double_colon (q : List Char) (h1 : q.head? ≠ some '{')
    (h2 : 2 ≤ q.count ':') : local_name (.str q) = .error .valueError :=
  (local_name_str_error_iff q).mpr (Or.inr ⟨h1, h2⟩)

/-- Witness for C10 at `"a:b:c"`. -/
theorem local_name_double_colon_witness :
    local_name (.str "a:b:c".data) = .error .valueError :=
  local_name_double_colon "a:b:c".data (by decide) (by decide)

/-! ### Lemmas for `pySplit` / `joinSpace` -/

theorem takeWhile_append_of_all {p : Char → Bool} {u l : List Char} {a : Char}
    (hu : ∀ c ∈ u, p c = true) (ha : p a = false) :
    (u ++ a :: l).takeWhile p = u := by
  induction u with
  | nil => simp [List.takeWhile, ha]
  | cons b u ih =>
    have hb := hu b (List.mem_cons_self b u)
    simp [List.takeWhile, hb, ih (fun c hc => hu c (List.mem_cons_of_mem b hc))]

theorem dropWhile_append_of_all {p : Char → Bool} {u l : List Char} {a : Char}
    (hu : ∀ c ∈ u, p c = true) (ha : p a = false) :
    (u ++ a :: l).dropWhile p = a :: l := by
  induction u with
  | nil => simp [List.dropWhile, ha]
  | cons b u ih =>
    have hb := hu b (List.mem_cons_self b u)
    simp [List.dropWhile, hb, ih (fun c hc => hu c (List.mem_cons_of_mem b hc))]

theorem takeWhile_eq_self_of_all {p : Char → Bool} {u : List Char}
    (hu : ∀ c ∈ u, p c = true) : u.takeWhile p = u := by
  induction u with
  | nil => rfl
  | cons b u ih =>
    have hb := hu b (List.mem_cons_self b u)
    simp [List.takeWhile, hb, ih (fun c hc => hu c (List.mem_cons_of_mem b hc))]

theorem dropWhile_eq_nil_of_all {p : Char → Bool} {u : List Char}
    (hu : ∀ c ∈ u, p c = true) : u.dropWhile p = [] := by
  induction u with
  | nil => rfl
  | cons b u ih =>
    have hb := hu b (List.mem_cons_self b u)
    simp [List.dropWhile, hb, ih (fun c hc => hu c (List.mem_cons_of_mem b hc))]

/-- A single non-empty whitespace-free token splits to itself. -/
theorem pySplit_token {x : List Char} (hx : x ≠ [])
    (hw : ∀ c ∈ x, isPySpace c = false) : pySplit x = [x] := by
  cases x with
  | nil => exact absurd rfl hx
  | cons c rest =>
    have hc : isPySpace c = false := hw c (List.mem_cons_self c rest)
    have hr : ∀ d ∈ rest, (!isPySpace d) = true := fun d hd => by
      simp [hw d (List.mem_cons_of_mem c hd)]
    simp [pySplit, hc, takeWhile_eq_self_of_all hr, dropWhile_eq_nil_of_all hr]

/-- Splitting consumes one leading token and the following space. -/
theorem pySplit_cons_token {x tail : List Char} (hx : x ≠ [])
    (hw : ∀ c ∈ x, isPySpace c = false) :
    pySplit (x ++ ' ' :: tail) = x :: pySplit tail := by
  cases x with
  | nil => exact absurd rfl hx
  | cons c rest =>
    have hc : isPySpace c = false := hw c (List.mem_cons_self c rest)
    have hr : ∀ d ∈ rest, (!isPySpace d) = true := fun d hd => by
      simp [hw d (List.mem_cons_of_mem c hd)]
    have hsp : (!isPySpace ' ') = false := by decide
    rw [List.cons_append, pySplit]
    rw [if_neg (by simp [hc])]
    rw [takeWhile_append_of_all hr hsp, dropWhile_append_of_all hr hsp]
    rw [pySplit, if_pos (by decide)]

/-- Splitting the space-join of non-empty whitespace-free tokens gives the
tokens back. -/
theorem pySplit_joinSpace {values : List (List Char)}
    (h : ∀ t ∈ values, t ≠ [] ∧ ∀ c ∈ t, isPySpace c = false) :
    pySplit (joinSpace values) = values := by
  induction values with
  | nil => simp [joinSpace, pySplit]
  | cons x tail ih =>
    cases tail with
    | nil =>
      have hx := h x (List.mem_cons_self x [])
      simpa [joinSpace] using pySplit_token hx.1 hx.2
    | cons y r =>
      have hx := h x (List.mem_cons_self x (y :: r))
      have htail := fun t ht => h t (List.mem_cons_of_mem x ht)
      show pySplit (x ++ ' ' :: joinSpace (y :: r)) = x :: y :: r
      rw [pySplit_cons_token hx.1 hx.2, ih htail]

/-- C6: `get_xsd_derivation_attribute` returns `''` for a missing
attribute; returns the space-joined `values` when the value is the single
token `#all` (and joining then re-splitting well-formed tokens is the
identity, so the token set is exactly `values`); fails with the
constraint error when some whitespace token of the value is not in
`values`; and otherwise returns the raw value unchanged. -/
theorem derivation_control_cases (values : List (List Char)) (v : List Char) :
    get_xsd_derivation_attribute none values = .ok [] ∧
    (pySplit v = ["#all".data] →
      get_xsd_derivation_attribute (some v) values = .ok (joinSpace values)) ∧
    ((∀ t ∈ values, t ≠ [] ∧ ∀ c ∈ t, isPySpace c = false) →
      pySplit (joinSpace values) = values) ∧
    (pySplit v ≠ ["#all".data] → (∃ t ∈ pySplit v, t ∉ values) →
      get_xsd_derivation_attribute (some v) values = .error .valueError) ∧
    (pySplit v ≠ ["#all".data] → (∀ t ∈ pySplit v, t ∈ values) →
      get_xsd_derivation_attribute (some v) values = .ok v) := by
  refine ⟨rfl, ?_, fun h => pySplit_joinSpace h, ?_, ?_⟩
  · intro h
    simp [get_xsd_derivation_attribute, h]
  · rintro hne ⟨t, ht, htv⟩
    simp [get_xsd_derivation_attribute, hne]
    exact ⟨t, ht, htv⟩
  · intro hne hall
    simp [get_xsd_derivation_attribute, hne]
    exact hall

/-- Witness for C6: the spec's example `derivation_control("a x", {"a","b"})`
fails with the constraint error. -/
theorem derivation_control_cases_witness :
    get_xsd_derivation_attribute (some ['a', ' ', 'x']) [['a'], ['b']] =
      .error .valueError := by
  have hsplit : pySplit ['a', ' ', 'x'] = [['a'], ['x']] := by
    simp [pySplit, isPySpace, List.takeWhile, List.dropWhile]
  exact (derivation_control_cases [['a'], ['b']] ['a', ' ', 'x']).2.2.2.1
    (by rw [hsplit]; decide) ⟨['x'], by rw [hsplit]; decide, by decide⟩

/-! ### The descending tuple order used by `sorted(…, reverse=True)` -/

instance : IsTrichotomous (List Char) (List.Lex (· < ·)) := inferInstance

instance : IsAsymm (List Char) (List.Lex (· < ·)) := inferInstance

instance : IsTrans (List Char) (List.Lex (· < ·)) := inferInstance

instance : IsIrrefl (List Char) (List.Lex (· < ·)) := inferInstance

instance : IsOrderConnected (List Char) (List.Lex (· < ·)) := inferInstance

theorem listLtB_iff {a b : List Char} : listLtB a b = true ↔ List.Lex (· < ·) a b := by
  induction a generalizing b with
  | nil =>
    cases b with
    | nil => simp [listLtB, List.Lex.not_nil_right]
    | cons y t => simpa [listLtB] using List.Lex.nil
  | cons x s ih =>
    cases b with
    | nil => simp [listLtB, List.Lex.not_nil_right]
    | cons y t =>
      by_cases hxy : x < y
      · simpa [listLtB, hxy] using List.Lex.rel hxy
      · by_cases hyx : y < x
        · simp only [listLtB, if_neg hxy, if_pos hyx]
          constructor
          · intro h
            exact absurd h (Bool.false_ne_true)
          · intro h
            cases h with
            | cons h' => exact absurd hyx (lt_irrefl _)
            | rel h' => exact absurd h' hxy
        · have hxyeq : x = y := le_antisymm (not_lt.mp hyx) (not_lt.mp hxy)
          subst hxyeq
          simp only [listLtB, if_neg hxy]
          rw [List.Lex.cons_iff]
          exact ih

theorem listLtB_false_iff {a b : List Char} :
    listLtB a b = false ↔ ¬ List.Lex (· < ·) a b := by
  rw [← listLtB_iff]
  cases listLtB a b <;> simp

theorem listLtB_asymm {a b : List Char} (h : listLtB a b = true) :
    listLtB b a = false :=
  listLtB_false_iff.mpr (asymm_of (List.Lex (· < ·)) (listLtB_iff.mp h))

theorem listLtB_irrefl (a : List Char) : listLtB a a = false :=
  listLtB_false_iff.mpr (irrefl_of (List.Lex (· < ·)) a)

theorem listLtB_eq_of_false {a b : List Char} (h1 : listLtB a b = false)
    (h2 : listLtB b a = false) : a = b := by
  rcases trichotomous_of (List.Lex ((· < ·) : Char → Char → Prop)) a b with h | h | h
  · exact absurd h (listLtB_false_iff.mp h1)
  · exact h
  · exact absurd h (listLtB_false_iff.mp h2)

theorem entryGe_refl (x : NSEntry) : entryGe x x := by
  unfold entryGe pairGeB
  simp [listLtB_irrefl]

theorem entryGe_total (x y : NSEntry) : entryGe x y ∨ entryGe y x := by
  unfold entryGe pairGeB
  cases h1 : listLtB x.1 y.1
  · cases h2 : listLtB y.1 x.1
    · cases h3 : listLtB x.2 y.2
      · left
        simp [h1, h2, h3]
      · right
        simp [h1, h2, listLtB_asymm h3]
    · left
      simp [h1, h2]
  · right
    simp [h1, listLtB_asymm h1]

theorem entryGe_antisymm (x y : NSEntry) (hxy : entryGe x y) (hyx : entryGe y x) :
    x = y := by
  unfold entryGe pairGeB at hxy hyx
  cases h1 : listLtB x.1 y.1
  · cases h2 : listLtB y.1 x.1
    · have he1 : x.1 = y.1 := listLtB_eq_of_false h1 h2
      simp only [h1, h2, if_neg Bool.false_ne_true] at hxy hyx
      simp only [Bool.not_eq_true'] at hxy hyx
      exact Prod.ext he1 (listLtB_eq_of_false hxy hyx)
    · simp [h1, h2] at hyx
  · simp [h1] at hxy

theorem pairGeB_iff {x y : NSEntry} :
    pairGeB x y = true ↔
      (List.Lex (· < ·) y.1 x.1 ∨
       (x.1 = y.1 ∧ ¬ List.Lex (· < ·) x.2 y.2)) := by
  unfold pairGeB
  cases h1 : listLtB x.1 y.1
  · cases h2 : listLtB y.1 x.1
    · have he : x.1 = y.1 := listLtB_eq_of_false h1 h2
      have hn2 : ¬ List.Lex (· < ·) y.1 x.1 := listLtB_false_iff.mp h2
      simp only [Bool.false_eq_true, if_false, Bool.not_eq_true']
      constructor
      · intro h3
        exact Or.inr ⟨he, listLtB_false_iff.mp h3⟩
      · rintro (h | ⟨_, h⟩)
        · exact absurd h hn2
        · exact listLtB_false_iff.mpr h
    · have hl : List.Lex (· < ·) y.1 x.1 := listLtB_iff.mp h2
      simp [hl]
  · have hl : List.Lex (· < ·) x.1 y.1 := listLtB_iff.mp h1
    simp only [if_true, Bool.false_eq_true, false_iff]
    rintro (h | ⟨he, _⟩)
    · exact asymm_of (List.Lex (· < ·)) hl h
    · exact absurd (he ▸ hl)
        (irrefl_of (List.Lex ((· < ·) : Char → Char → Prop)) y.1)

theorem entryGe_trans (x y z : NSEntry) (h1 : entryGe x y) (h2 : entryGe y z) :
    entryGe x z := by
  rw [entryGe, pairGeB_iff] at h1 h2 ⊢
  rcases h1 with h1 | ⟨e1, n1⟩ <;> rcases h2 with h2 | ⟨e2, n2⟩
  · exact Or.inl (trans_of (List.Lex (· < ·)) h2 h1)
  · exact Or.inl (e2 ▸ h1)
  · exact Or.inl (e1 ▸ h2)
  · refine Or.inr ⟨e1.trans e2, fun hc => ?_⟩
    rcases IsOrderConnected.conn x.2 y.2 z.2 hc with h | h
    · exact n1 h
    · exact n2 h

instance : IsTotal NSEntry entryGe := ⟨entryGe_total⟩

instance : IsTrans NSEntry entryGe := ⟨entryGe_trans⟩

instance : IsAntisymm NSEntry entryGe := ⟨entryGe_antisymm⟩

theorem sortDesc_perm (l : List NSEntry) : (sortDesc l).Perm l :=
  List.perm_insertionSort entryGe l

theorem sortDesc_sorted (l : List NSEntry) : List.Sorted entryGe (sortDesc l) :=
  List.sorted_insertionSort entryGe l

/-- C9: the visited candidates of `qname_to_prefixed` are exactly the map
items bound to `get_namespace(qname)`: the result does not depend on the
order of the map items (determinism under aliasing); when no item is
bound to the namespace the input is returned unchanged; and when some
are, the one applied is a greatest matching item in the tuple order
(descending prefix order, since all candidate URIs coincide). -/
theorem prefixed_deterministic (q : List Char) (m m' : List NSEntry)
    (hperm : m.Perm m') :
    qname_to_prefixed q m = qname_to_prefixed q m' ∧
    (m.filter (fun x => x.2 == get_namespace_core q) = [] →
      qname_to_prefixed q m = q) ∧
    (q ≠ [] →
      ∀ ms, ms = m.filter (fun x => x.2 == get_namespace_core q) → ms ≠ [] →
        ∃ e ∈ ms, (∀ e', e' ∈ ms → entryGe e e') ∧
          qname_to_prefixed q m = applyNS q e) := by
  refine ⟨?_, ?_, ?_⟩
  · by_cases hq : q = []
    · simp [qname_to_prefixed, hq]
    · have hpf : (m.filter (fun x => x.2 == get_namespace_core q)).Perm
          (m'.filter (fun x => x.2 == get_namespace_core q)) :=
        hperm.filter _
      have hsort : sortDesc (m.filter (fun x => x.2 == get_namespace_core q)) =
          sortDesc (m'.filter (fun x => x.2 == get_namespace_core q)) :=
        List.eq_of_perm_of_sorted
          (((sortDesc_perm _).trans hpf).trans (sortDesc_perm _).symm)
          (sortDesc_sorted _) (sortDesc_sorted _)
      simp only [qname_to_prefixed, if_neg hq, hsort]
  · intro hf
    by_cases hq : q = []
    · simp [qname_to_prefixed, hq]
    · simp [qname_to_prefixed, if_neg hq, hf, sortDesc, List.insertionSort]
  · intro hq ms hms hne
    have hperm2 : (sortDesc ms).Perm ms := sortDesc_perm ms
    have hsne : sortDesc ms ≠ [] := by
      intro h
      exact hne (List.Perm.eq_nil (h ▸ hperm2.symm))
    obtain ⟨e, rest, hrest⟩ := List.exists_cons_of_ne_nil hsne
    refine ⟨e, ?_, ?_, ?_⟩
    · exact hperm2.mem_iff.mp (hrest ▸ List.mem_cons_self e rest)
    · intro e' he'
      have hmem : e' ∈ sortDesc ms := hperm2.mem_iff.mpr he'
      rw [hrest] at hmem
      rcases List.mem_cons.mp hmem with h | h
      · exact h ▸ entryGe_refl e
      · exact List.rel_of_sorted_cons (hrest ▸ sortDesc_sorted ms) e' h
    · simp only [qname_to_prefixed, if_neg hq, ← hms, hrest]

/-- Witness for C9: two maps aliasing `"u"` under prefixes `"a"` and
`"b"`, in either item order, prefix the name `"{u}x"` identically. -/
theorem prefixed_deterministic_witness :
    qname_to_prefixed ['{', 'u', '}', 'x'] [(['a'], ['u']), (['b'], ['u'])] =
      qname_to_prefixed ['{', 'u', '}', 'x'] [(['b'], ['u']), (['a'], ['u'])] :=
  (prefixed_deterministic ['{', 'u', '}', 'x'] _ _ (List.Perm.swap _ _ _)).1

/-! ### Lemmas for the extended/prefixed round trip -/

theorem pyGet_mem {m : List NSEntry} {k v : List Char} (h : pyGet m k = some v) :
    (k, v) ∈ m := by
  induction m with
  | nil => simp [pyGet] at h
  | cons e rest ih =>
    rw [pyGet] at h
    by_cases he : e.1 = k
    · rw [if_pos he] at h
      injection h with h2
      have hkv : (k, v) = e := by
        rw [← he, ← h2]
      exact List.mem_cons.mpr (Or.inl hkv)
    · rw [if_neg he] at h
      exact List.mem_cons_of_mem e (ih h)

theorem splitOnce_eq {c : Char} {s : List Char} {pr : List Char × List Char}
    (h : splitOnce c s = some pr) : s = pr.1 ++ c :: pr.2 ∧ c ∉ pr.1 := by
  induction s generalizing pr with
  | nil => simp [splitOnce] at h
  | cons a rest ih =>
    rw [splitOnce] at h
    by_cases hac : a = c
    · rw [if_pos hac] at h
      injection h with h2
      subst hac
      rw [← h2]
      simp
    · rw [if_neg hac] at h
      rcases Option.map_eq_some'.mp h with ⟨p', hp', hpr⟩
      obtain ⟨h1, h2⟩ := ih hp'
      rw [← hpr]
      constructor
      · simp [h1]
      · simp only [List.mem_cons]
        rintro (hc | hc)
        · exact hac hc.symm
        · exact h2 hc

theorem filter_pair_unique {m : List NSEntry} {p u : List Char}
    (hmem : (p, u) ∈ m) (hnodup : (m.map Prod.snd).Nodup) :
    m.filter (fun x => x.2 == u) = [(p, u)] := by
  induction m with
  | nil => simp at hmem
  | cons e rest ih =>
    rw [List.map_cons, List.nodup_cons] at hnodup
    rcases List.mem_cons.mp hmem with he | hm
    · rw [← he] at hnodup ⊢
      rw [List.filter_cons, if_pos (by simp)]
      have hrest : rest.filter (fun x => x.2 == u) = [] := by
        refine List.filter_eq_nil_iff.mpr ?_
        intro x hx hbeq
        refine hnodup.1 ?_
        show u ∈ List.map Prod.snd rest
        have hxu : x.2 = u := by simpa using hbeq
        rw [← hxu]
        exact List.mem_map_of_mem Prod.snd hx
      rw [hrest]
    · have hne : e.2 ≠ u := by
        intro hh
        exact hnodup.1 (hh ▸ List.mem_map_of_mem Prod.snd hm)
      rw [List.filter_cons, if_neg (by simp [hne])]
      exact ih hm hnodup.2

theorem pyReplace_no_brace {u rep : List Char} (s : List Char) (hno : '{' ∉ s) :
    pyReplace ('{' :: u) rep s = s := by
  induction s with
  | nil => rw [pyReplace]
  | cons c rest ih =>
    have hc : c ≠ '{' := fun h => hno (h ▸ List.mem_cons_self c rest)
    have hnr : '{' ∉ rest := fun h => hno (List.mem_cons_of_mem c h)
    rw [pyReplace, if_neg, ih hnr]
    rintro ⟨-, hpre⟩
    have hpfx := List.isPrefixOf_iff_prefix.mp hpre
    exact hc (List.cons_prefix_cons.mp hpfx).1.symm

theorem pyReplace_strip {u rep l : List Char} (hno : '{' ∉ l) :
    pyReplace ('{' :: u) rep (('{' :: u) ++ l) = rep ++ l := by
  rw [List.cons_append, pyReplace, if_pos]
  · have hdrop : (u ++ l).drop (('{' :: u).length - 1) = l := by
      simp only [List.length_cons, Nat.add_sub_cancel]
      exact List.drop_left u l
    rw [hdrop, pyReplace_no_brace l hno]
  · refine ⟨by simp, ?_⟩
    exact List.isPrefixOf_iff_prefix.mpr ⟨l, by simp⟩

theorem prefixed_no_candidate {q : List Char} {m : List NSEntry}
    (hq : q.head? ≠ some '{') (hne : ∀ e ∈ m, e.2 ≠ []) :
    qname_to_prefixed q m = q := by
  by_cases hq0 : q = []
  · simp [qname_to_prefixed, hq0]
  · have hns : get_namespace_core q = [] := get_namespace_core_not_brace hq
    have hf : m.filter (fun x => x.2 == get_namespace_core q) = [] := by
      rw [hns]
      refine List.filter_eq_nil_iff.mpr ?_
      intro e he hbeq
      exact hne e he (by simpa using hbeq)
    simp [qname_to_prefixed, hq0, hf, sortDesc, List.insertionSort]

theorem prefixed_unique_candidate {u l p : List Char} {m : List NSEntry}
    (hmem : (p, u) ∈ m) (hnodup : (m.map Prod.snd).Nodup) (hwfu : '}' ∉ u) :
    qname_to_prefixed ('{' :: (u ++ '}' :: l)) m =
      applyNS ('{' :: (u ++ '}' :: l)) (p, u) := by
  have hns := get_namespace_core_universal (l := l) hwfu
  simp only [qname_to_prefixed, hns, filter_pair_unique hmem hnodup]
  rw [if_neg (by simp)]
  rfl

/-- C4 (amended): `to_prefixed` inverts `to_universal_from_prefixed` for an
injective namespace map provided additionally every bound URI is non-empty
and free of `'}'`, and the name contains no `'{'` and does not begin with
`':'`.  Injectivity alone is not enough: a prefix bound to the empty URI
gives two names with the same universal form (see the counterexample). -/
theorem extended_prefixed_roundtrip (q : List Char) (m : List NSEntry)
    (hinj : (m.map Prod.snd).Nodup)
    (hwf : ∀ e ∈ m, e.2 ≠ [] ∧ '}' ∉ e.2)
    (hq1 : '{' ∉ q) (hq2 : q.head? ≠ some ':') :
    qname_to_prefixed (qname_to_extended q m) m = q := by
  have hne : ∀ e ∈ m, e.2 ≠ [] := fun e he => (hwf e he).1
  by_cases hq0 : q = []
  · subst hq0
    simp [qname_to_extended, qname_to_prefixed]
  have hqh : q.head? ≠ some '{' := by
    cases q with
    | nil => simp
    | cons c r =>
      simp only [List.head?_cons, ne_eq, Option.some.injEq]
      intro hc
      exact hq1 (by rw [hc]; exact List.mem_cons_self '{' r)
  by_cases hm0 : m = []
  · subst hm0
    have hext : qname_to_extended q [] = q := by
      simp [qname_to_extended]
    rw [hext]
    exact prefixed_no_candidate hqh (by simp)
  have hguard : ¬(q = [] ∨ q.head? = some '{' ∨ m = []) := by
    push_neg
    exact ⟨hq0, hqh, hm0⟩
  unfold qname_to_extended
  rw [if_neg hguard]
  cases hsplit : splitOnce ':' q with
  | none =>
    show qname_to_prefixed
        (match pyGet m [] with
         | some u => if u = [] then q else '{' :: (u ++ '}' :: q)
         | none => q) m = q
    cases hget : pyGet m [] with
    | none => exact prefixed_no_candidate hqh hne
    | some u =>
      have hmem := pyGet_mem hget
      have hu : u ≠ [] := (hwf _ hmem).1
      have hwfu : '}' ∉ u := (hwf _ hmem).2
      show qname_to_prefixed (if u = [] then q else '{' :: (u ++ '}' :: q)) m = q
      rw [if_neg hu]
      rw [prefixed_unique_candidate hmem hinj hwfu]
      unfold applyNS
      rw [if_neg hu, if_neg (by simp)]
      have hshape : '{' :: (u ++ '}' :: q) = ('{' :: (u ++ ['}'])) ++ q := by
        simp
      rw [hshape, pyReplace_strip hq1]
      simp
  | some pl =>
    obtain ⟨p, l⟩ := pl
    obtain ⟨hqeq, hnc⟩ := splitOnce_eq hsplit
    simp only at hqeq hnc
    have hp_ne : p ≠ [] := by
      intro h
      subst h
      rw [hqeq] at hq2
      simp at hq2
    show qname_to_prefixed
        (match pyGet m p with
         | none => q
         | some u => if u = [] then l else '{' :: (u ++ '}' :: l)) m = q
    cases hget : pyGet m p with
    | none => exact prefixed_no_candidate hqh hne
    | some u =>
      have hmem := pyGet_mem hget
      have hu : u ≠ [] := (hwf _ hmem).1
      have hwfu : '}' ∉ u := (hwf _ hmem).2
      show qname_to_prefixed (if u = [] then l else '{' :: (u ++ '}' :: l)) m = q
      rw [if_neg hu]
      have hl1 : '{' ∉ l := by
        intro hc
        apply hq1
        rw [hqeq]
        exact List.mem_append_right p (List.mem_cons_of_mem ':' hc)
      rw [prefixed_unique_candidate hmem hinj hwfu]
      unfold applyNS
      rw [if_neg hu, if_pos (by simpa using hp_ne)]
      have hshape : '{' :: (u ++ '}' :: l) = ('{' :: (u ++ ['}'])) ++ l := by
        simp
      rw [hshape, pyReplace_strip hl1, hqeq]
      simp

/-- Counterexample to C4 as stated: the injective map `{"p": ""}` (a
single prefix bound to the empty URI) sends the plain local name `"l"`
through the round trip to `"p:l"`, not back to `"l"`. -/
theorem extended_prefixed_roundtrip_cex :
    (([(['p'], [])] : List NSEntry).map Prod.snd).Nodup ∧
    qname_to_prefixed (qname_to_extended ['l'] [(['p'], [])]) [(['p'], [])] =
      ['p', ':', 'l'] ∧
    (['p', ':', 'l'] : List Char) ≠ ['l'] := by
  refine ⟨by decide, ?_, by decide⟩
  simp [qname_to_extended, splitOnce, pyGet, qname_to_prefixed,
    get_namespace_core, sortDesc, List.insertionSort, List.orderedInsert, applyNS]

/-- Witness for C4 (amended) at `q = "p:l"`, `m = {"p": "u"}`. -/
theorem extended_prefixed_roundtrip_witness :
    qname_to_prefixed (qname_to_extended ['p', ':', 'l'] [(['p'], ['u'])])
      [(['p'], ['u'])] = ['p', ':', 'l'] :=
  extended_prefixed_roundtrip ['p', ':', 'l'] [(['p'], ['u'])]
    (by decide) (by decide) (by decide) (by decide)
